import Mathlib

/-!
Verification of the typed-dataframe schema library (`polars_typed`).

The development shallowly embeds `src/polars_typed/__init__.py`:

* `PolarsType` / `PValue` model the polars data types and cell values that the
  repository's declarations and tests exercise.
* `Column`, `Member`, `buildMeta` model the `Column` descriptor and the
  metaclass `_Meta.__new__` (schema construction, inheritance merge, hygiene
  checks, check harvesting, attribute rebinding).
* `validate`, `coerce`, `primary_key`, `perform_data_quality_checks` model the
  corresponding methods of `_DataFrameSchema` and the module-level helpers.

Python dictionaries (and `pl.Schema`, an `OrderedDict` subclass) are modelled
as association lists with insert-or-overwrite (`updInsert`); dataframes are
ordered lists of named, typed columns.
-/

namespace PolarsTyped

/-- The polars data types appearing in the repository and its tests.  Models
`pl.DataType` values such as `pl.Boolean`, `pl.Int8`, ..., `pl.String`. -/
inductive PolarsType
  | boolean
  | int8
  | int16
  | int32
  | int64
  | float16
  | float32
  | float64
  | string
deriving DecidableEq, Fintype

namespace PolarsType

/-- Bit width of a signed-integer dtype, `none` for non-integer dtypes. -/
def intBits : PolarsType → Option Nat
  | int8 => some 8
  | int16 => some 16
  | int32 => some 32
  | int64 => some 64
  | _ => none

/-- Bit width of a floating dtype, `none` for non-float dtypes. -/
def floatBits : PolarsType → Option Nat
  | float16 => some 16
  | float32 => some 32
  | float64 => some 64
  | _ => none

/-- Models polars `DataType.is_numeric()`. -/
def is_numeric (t : PolarsType) : Bool :=
  t.intBits.isSome || t.floatBits.isSome

end PolarsType

/-- A cell value of a dataframe.  Floating-point payloads are modelled as
rationals: the claims under verification only move values unchanged between
numeric dtypes, never perform float arithmetic or rounding. -/
inductive PValue
  | null
  | bool (b : Bool)
  | int (n : Int)
  | float (q : ℚ)
  | str (s : String)
deriving DecidableEq

/-- `n` fits a signed integer of the given bit width. -/
def inIntRange (bits : Nat) (n : Int) : Bool :=
  decide (-(2 ^ (bits - 1) : Int) ≤ n) && decide (n < (2 ^ (bits - 1) : Int))

/-- A value is well formed at a dtype (nulls are valid at every dtype). -/
def validValue (t : PolarsType) (v : PValue) : Bool :=
  match v with
  | .null => true
  | .bool _ => t = .boolean
  | .int n =>
    match t.intBits with
    | some bits => inIntRange bits n
    | none => false
  | .float _ => t.floatBits.isSome
  | .str _ => t = .string

/-- The dataset engine's strict `cast` primitive, an external collaborator the
spec leaves to the engine ("column selection/casting ... primitives").  Nulls
cast to nulls; integers re-check the target range; integer-to-float and
float-to-float keep the payload; unsupported conversions fail. -/
def castValue (v : PValue) (t : PolarsType) : Option PValue :=
  match v with
  | .null => some .null
  | .bool b =>
    if t = .boolean then some (.bool b)
    else if t.intBits.isSome then some (.int (if b then 1 else 0))
    else if t.floatBits.isSome then some (.float (if b then 1 else 0))
    else none
  | .int n =>
    match t.intBits with
    | some bits => if inIntRange bits n then some (.int n) else none
    | none =>
      if t.floatBits.isSome then some (.float (n : ℚ))
      else if t = .boolean then some (.bool (decide (n ≠ 0)))
      else if t = .string then some (.str (toString n))
      else none
  | .float q =>
    if t.floatBits.isSome then some (.float q)
    else
      match t.intBits with
      | some bits =>
        if inIntRange bits (q.num.tdiv (q.den : Int)) then
          some (.int (q.num.tdiv (q.den : Int)))
        else none
      | none => none
  | .str s => if t = .string then some (.str s) else none

/-- A named, typed column of a materialized dataframe. -/
structure Series where
  name : String
  dtype : PolarsType
  values : List PValue
deriving DecidableEq

/-- A materialized dataframe: an ordered list of columns. -/
abbrev Frame := List Series

/-- `df.height`: the row count (0 for a dataframe without columns). -/
def height : Frame → Nat
  | [] => 0
  | s :: _ => s.values.length

/-- `c in df`: dataframe column membership by name. -/
def hasCol (df : Frame) (c : String) : Bool :=
  df.any (fun s => s.name == c)

/-- Retrieve a column by name (first match, as in polars where names are
unique). -/
def getCol (df : Frame) (c : String) : Option Series :=
  df.find? (fun s => s.name == c)

/-- `df.collect_schema()`: the runtime ordered schema of a dataframe. -/
def collectSchema (df : Frame) : List (String × PolarsType) :=
  df.map (fun s => (s.name, s.dtype))

/-- Well-formedness that polars maintains for every dataframe: column names
are unique and all columns have the same length. -/
def wfFrame (df : Frame) : Prop :=
  (df.map (fun s => s.name)).Nodup ∧ ∀ s ∈ df, s.values.length = height df

instance (df : Frame) : Decidable (wfFrame df) := by
  unfold wfFrame; infer_instance

/-- Python-dict assignment on an association list: overwrite the value in
place if the key is present, append otherwise. -/
def updInsert {α : Type _} (l : List (String × α)) (k : String) (v : α) :
    List (String × α) :=
  match l with
  | [] => [(k, v)]
  | (k', v') :: rest =>
    if k' = k then (k', v) :: rest else (k', v') :: updInsert rest k v

/-- `pl.Schema(items)`: build an ordered mapping from a pair list with Python
dict semantics (a recurring key keeps its first position, later values win). -/
def mkSchema (items : List (String × PolarsType)) : List (String × PolarsType) :=
  items.foldl (fun acc kv => updInsert acc kv.1 kv.2) []

/-- Dictionary lookup on an association list. -/
def lookupT {α : Type _} (l : List (String × α)) (k : String) : Option α :=
  (l.find? (fun kv => kv.1 == k)).map Prod.snd

/-- The ordered key list of an association list. -/
def keysOf {α : Type _} (l : List (String × α)) : List String :=
  l.map Prod.fst

/-- Spec-side notion for the conflict rule: the names of a pair list in
first-seen order, duplicates removed. -/
def firstOccAux (acc : List String) : List String → List String
  | [] => acc
  | x :: xs => firstOccAux (if acc.contains x then acc else acc ++ [x]) xs

/-- First-seen occurrence order of a name list. -/
def firstOccurrences (xs : List String) : List String :=
  firstOccAux [] xs

/-- Spec-side notion for the conflict rule: the value of the last occurrence
of a key in a pair list. -/
def lastLookup {α : Type _} (l : List (String × α)) (k : String) : Option α :=
  lookupT l.reverse k

theorem lookupT_nil {α : Type _} (k : String) : lookupT ([] : List (String × α)) k = none := rfl

theorem lookupT_cons {α : Type _} (k' : String) (v' : α) (rest : List (String × α)) (k : String) :
    lookupT ((k', v') :: rest) k = if k' = k then some v' else lookupT rest k := by
  by_cases h : k' = k
  · have hb : (k' == k) = true := beq_iff_eq.mpr h
    simp [lookupT, List.find?_cons, hb, h]
  · have hb : (k' == k) = false := by simp [h]
    simp [lookupT, List.find?_cons, hb, h]

theorem lookupT_updInsert {α : Type _} (l : List (String × α)) (k : String) (v : α)
    (k' : String) :
    lookupT (updInsert l k v) k' = if k = k' then some v else lookupT l k' := by
  induction l with
  | nil => simp [updInsert, lookupT_cons, lookupT_nil]
  | cons hd tl ih =>
    obtain ⟨k0, v0⟩ := hd
    by_cases h0 : k0 = k
    · subst h0
      by_cases h1 : k0 = k'
      · simp [updInsert, lookupT_cons, h1]
      · simp [updInsert, lookupT_cons, h1]
    · by_cases h1 : k0 = k'
      · subst h1
        have h3 : ¬ k = k0 := fun h => h0 h.symm
        simp [updInsert, lookupT_cons, h0, h3]
      · simp [updInsert, lookupT_cons, ih, h0, h1]

theorem keysOf_nil {α : Type _} : keysOf ([] : List (String × α)) = [] := rfl

theorem keysOf_cons {α : Type _} (k : String) (v : α) (l : List (String × α)) :
    keysOf ((k, v) :: l) = k :: keysOf l := rfl

theorem keysOf_updInsert {α : Type _} (l : List (String × α)) (k : String) (v : α) :
    keysOf (updInsert l k v) =
      if (keysOf l).contains k then keysOf l else keysOf l ++ [k] := by
  induction l with
  | nil => simp [updInsert, keysOf]
  | cons hd tl ih =>
    obtain ⟨k0, v0⟩ := hd
    by_cases h0 : k0 = k
    · subst h0
      simp [updInsert, keysOf_cons, List.contains_cons]
    · have hbeq : (k == k0) = false := by
        simp only [beq_eq_false_iff_ne, ne_eq]
        exact fun h => h0 h.symm
      simp only [updInsert, if_neg h0, keysOf_cons, List.contains_cons, hbeq, Bool.false_or]
      rw [ih]
      by_cases h1 : (keysOf tl).contains k = true
      · rw [if_pos h1, if_pos h1]
      · rw [if_neg h1, if_neg h1, List.cons_append]

theorem lastLookup_cons {α : Type _} (k0 : String) (v0 : α) (rest : List (String × α))
    (k : String) :
    lastLookup ((k0, v0) :: rest) k =
      match lastLookup rest k with
      | some v => some v
      | none => if k0 = k then some v0 else none := by
  simp only [lastLookup, lookupT, List.reverse_cons, List.find?_append]
  cases hfind : rest.reverse.find? (fun kv => kv.1 == k) with
  | none =>
    simp only [hfind, Option.none_or]
    by_cases h : k0 = k
    · have hb : (k0 == k) = true := beq_iff_eq.mpr h
      simp [List.find?_cons, hb, h]
    · have hb : (k0 == k) = false := by simp [h]
      simp [List.find?_cons, hb, h]
  | some kv =>
    simp [hfind]

/-- Evaluation of the `pl.Schema` fold: lookup returns the value of the last
occurrence, falling back to the accumulator. -/
theorem lookupT_schemaFold {α : Type _} (items : List (String × α))
    (acc : List (String × α)) (k : String) :
    lookupT (items.foldl (fun a kv => updInsert a kv.1 kv.2) acc) k =
      match lastLookup items k with
      | some v => some v
      | none => lookupT acc k := by
  induction items generalizing acc with
  | nil => simp [lastLookup, lookupT, List.find?]
  | cons hd tl ih =>
    obtain ⟨k0, v0⟩ := hd
    simp only [List.foldl_cons]
    rw [ih, lastLookup_cons]
    cases htl : lastLookup tl k with
    | some v => rfl
    | none =>
      simp only
      rw [lookupT_updInsert]
      by_cases h : k0 = k
      · simp [h]
      · simp [h]

/-- Evaluation of the `pl.Schema` fold: the key list is the first-seen
occurrence order of the input keys, extended onto the accumulator. -/
theorem keysOf_schemaFold {α : Type _} (items : List (String × α))
    (acc : List (String × α)) :
    keysOf (items.foldl (fun a kv => updInsert a kv.1 kv.2) acc) =
      firstOccAux (keysOf acc) (keysOf items) := by
  induction items generalizing acc with
  | nil => rfl
  | cons hd tl ih =>
    obtain ⟨k0, v0⟩ := hd
    simp only [List.foldl_cons]
    rw [ih (updInsert acc k0 v0), keysOf_updInsert, keysOf_cons]
    rfl

/-- The `Column` descriptor (`class Column(str)`): subclasses `str`, so its
string content (`name`) is the column name, and `_t` (here `t`) is the
declared dtype. -/
structure Column where
  name : String
  t : PolarsType
deriving DecidableEq

/-- The `dtype` property of `Column`. -/
def Column.dtype (c : Column) : PolarsType := c.t

/-- A member of a schema class body (the `namespace` dict seen by
`_Meta.__new__`).  `func`/`classm` carry the `_is_data_quality_check` marker
flag set by the `data_quality_check` decorator; `classm` carries the check
body (a function of the validated frame, `cls` already bound).  `other`
stands for any value that is none of the recognized kinds (e.g. a bare
dtype).  The `__annotations__` key of a class body that used type
annotations appears as an ordinary `other` member under that name. -/
inductive Member
  | column (c : Column)
  | func (marked : Bool)
  | classm (marked : Bool) (body : Frame → Except String Unit)
  | staticm
  | prop
  | other

/-- A harvested data-quality check: either a classmethod with its body, or a
marked member that is not a classmethod (detected only at execution time). -/
inductive Check
  | classm (body : Frame → Except String Unit)
  | notClassm

/-- Errors raised by `_Meta.__new__` at schema-definition time. -/
inductive DefErr
  | annotations
  | unexpectedMembers (names : List String)
deriving DecidableEq

/-- The result of a schema class declaration: the canonical `_schema`, the
ordered `_data_quality_checks` list, and the final class namespace. -/
structure SchemaClass where
  schema : List (String × PolarsType)
  checks : List Check
  attrs : List (String × Member)

/-- The `(k, v._t)` pairs of the `Column`-valued members of a class body. -/
def ownColumnItems (ns : List (String × Member)) : List (String × PolarsType) :=
  ns.filterMap (fun km =>
    match km.2 with
    | .column c => some (km.1, c.t)
    | _ => none)

/-- The members of a class body carrying the `_is_data_quality_check`
marker, in declaration order. -/
def harvestChecks (ns : List (String × Member)) : List Check :=
  ns.filterMap (fun km =>
    match km.2 with
    | .func true => some .notClassm
    | .classm true body => some (.classm body)
    | _ => none)

/-- `"__annotations__" in namespace or "__annotate__" in namespace or
"__annotate_func__" in namespace`. -/
def hasAnnotationsKey (ns : List (String × Member)) : Bool :=
  ns.any (fun km =>
    km.1 == "__annotations__" || km.1 == "__annotate__" || km.1 == "__annotate_func__")

/-- `k.endswith("__")`: the last two characters are underscores (dunder or
other special member). -/
def endsWithDunder (k : String) : Bool :=
  k.data.reverse.take 2 == ['_', '_']

/-- `k.endswith("__") or inspect.isfunction(namespace[k]) or
isinstance(namespace[k], (classmethod, staticmethod, property))`. -/
def isAllowedProperty (k : String) (m : Member) : Bool :=
  endsWithDunder k ||
    (match m with
     | .func _ => true
     | .classm _ _ => true
     | .staticm => true
     | .prop => true
     | _ => false)

/-- `for k, v in schema.items(): namespace[k] = Column(v, k)`. -/
def setColumnAttrs (ns : List (String × Member)) (schema : List (String × PolarsType)) :
    List (String × Member) :=
  schema.foldl (fun acc kv => updInsert acc kv.1 (.column ⟨kv.1, kv.2⟩)) ns

/-- The concatenation `_Meta.__new__` feeds to `pl.Schema`: each parent's
schema items in parent order, then the own `Column` members in declaration
order. -/
def allItems (parents : List SchemaClass) (ns : List (String × Member)) :
    List (String × PolarsType) :=
  parents.flatMap (fun p => p.schema) ++ ownColumnItems ns

/-- The canonical `pl.Schema` of a declaration. -/
def canonicalOf (parents : List SchemaClass) (ns : List (String × Member)) :
    List (String × PolarsType) :=
  mkSchema (allItems parents ns)

/-- `super_class_data_quality_checks + [...]`: inherited checks (in parent
order) before own checks. -/
def allChecks (parents : List SchemaClass) (ns : List (String × Member)) : List Check :=
  parents.flatMap (fun p => p.checks) ++ harvestChecks ns

/-- `unexpected_properties`: every class-body key that is neither an allowed
property nor a canonical-schema column name. -/
def unexpectedProperties (ns : List (String × Member))
    (schema : List (String × PolarsType)) : List String :=
  (ns.filter (fun km =>
    !(isAllowedProperty km.1 km.2) && !((keysOf schema).contains km.1))).map Prod.fst

/-- `_Meta.__new__`: build the canonical schema (parents' items first, then
own columns, with `pl.Schema`'s ordered-overwrite semantics), harvest the
quality checks (inherited before own), run the two declaration hygiene checks
(annotations first, then unexpected members), and rebind every schema column
as a class attribute. -/
def buildMeta (parents : List SchemaClass) (ns : List (String × Member)) :
    Except DefErr SchemaClass :=
  if hasAnnotationsKey ns then
    .error .annotations
  else if (unexpectedProperties ns (canonicalOf parents ns)).isEmpty then
    .ok { schema := canonicalOf parents ns, checks := allChecks parents ns,
          attrs := setColumnAttrs ns (canonicalOf parents ns) }
  else
    .error (.unexpectedMembers (unexpectedProperties ns (canonicalOf parents ns)))

theorem buildMeta_ok_schema {parents : List SchemaClass} {ns : List (String × Member)}
    {sc : SchemaClass} (hok : buildMeta parents ns = .ok sc) :
    sc.schema = canonicalOf parents ns
    ∧ sc.checks = allChecks parents ns
    ∧ sc.attrs = setColumnAttrs ns (canonicalOf parents ns) := by
  unfold buildMeta at hok
  split at hok
  · exact absurd hok (by simp)
  · split at hok
    · rw [Except.ok.injEq] at hok
      subst hok
      exact ⟨rfl, rfl, rfl⟩
    · exact absurd hok (by simp)

/-- The two clauses of the conflict rule, for the raw `pl.Schema`
construction: keys keep their first-seen position, values come from the last
occurrence. -/
theorem mkSchema_spec (items : List (String × PolarsType)) :
    keysOf (mkSchema items) = firstOccurrences (keysOf items)
    ∧ ∀ k, lookupT (mkSchema items) k = lastLookup items k := by
  constructor
  · exact keysOf_schemaFold items []
  · intro k
    rw [mkSchema, lookupT_schemaFold items [] k]
    cases lastLookup items k with
    | some v => rfl
    | none => rfl

/-- C1: for a schema class built from parents `P1..Pn` and its own ordered
column declarations, the canonical schema is the concatenation of the
parents' columns followed by the own columns, in that order, where a
recurring column name keeps its first-seen position (the key list is the
first-occurrence order of the concatenation) and takes the type of its last
occurrence (lookup returns the last occurrence's type). -/
theorem C1_schema_merge (parents : List SchemaClass) (ns : List (String × Member))
    (sc : SchemaClass) (hok : buildMeta parents ns = .ok sc) :
    keysOf sc.schema =
      firstOccurrences (keysOf (parents.flatMap (fun p => p.schema) ++ ownColumnItems ns))
    ∧ ∀ k, lookupT sc.schema k =
        lastLookup (parents.flatMap (fun p => p.schema) ++ ownColumnItems ns) k := by
  rw [(buildMeta_ok_schema hok).1]
  exact mkSchema_spec _

/-- A concrete parent schema class, as built for
`class TestSchema(DataFrameSchema): foo = Column(pl.Boolean); bar = Column(pl.Int8)`. -/
def parentA : SchemaClass where
  schema := [("foo", .boolean), ("bar", .int8)]
  checks := []
  attrs := [("foo", .column ⟨"foo", .boolean⟩), ("bar", .column ⟨"bar", .int8⟩)]

/-- A child class body overriding the inherited `bar` with a new dtype and
adding a new column `baz`. -/
def childNs : List (String × Member) :=
  [("bar", .column ⟨"", .int16⟩), ("baz", .column ⟨"", .string⟩)]

/-- The schema class that `buildMeta [parentA] childNs` produces. -/
def canonicalChild : SchemaClass where
  schema := [("foo", .boolean), ("bar", .int16), ("baz", .string)]
  checks := []
  attrs := [("bar", .column ⟨"bar", .int16⟩), ("baz", .column ⟨"baz", .string⟩),
    ("foo", .column ⟨"foo", .boolean⟩)]

/-- Witness for C1 at a concrete inheritance-with-conflict instance: `bar`
keeps its inherited (first-seen) position but takes the child's (last) type. -/
theorem C1_schema_merge_witness :
    buildMeta [parentA] childNs = .ok canonicalChild
    ∧ keysOf canonicalChild.schema =
        firstOccurrences (keysOf ([parentA].flatMap (fun p => p.schema) ++ ownColumnItems childNs))
    ∧ lookupT canonicalChild.schema "bar" =
        lastLookup ([parentA].flatMap (fun p => p.schema) ++ ownColumnItems childNs) "bar" :=
  ⟨rfl, (C1_schema_merge [parentA] childNs canonicalChild rfl).1,
    (C1_schema_merge [parentA] childNs canonicalChild rfl).2 "bar"⟩

/-- Runtime errors of the schema operations: the two flavors of
`validate`'s `TypeError` (order mismatch vs aggregated set mismatch), the
engine errors reachable through `coerce`'s casts and column selection, the
misuse error of `perform_data_quality_checks`, and a raised check failure. -/
inductive SchemaError
  | orderMismatch (expected received : List (String × PolarsType))
  | mismatch (redundant missing : Finset String)
      (badTypes : List (String × PolarsType × PolarsType))
  | castFail (c : String)
  | columnNotFound (c : String)
  | misuse
  | checkFailure (msg : String)
deriving DecidableEq

instance {e a : Type _} [DecidableEq e] [DecidableEq a] : DecidableEq (Except e a) :=
  fun x y =>
    match x, y with
    | .ok u, .ok v =>
      if h : u = v then isTrue (by rw [h]) else isFalse (fun hh => h (by injection hh))
    | .error u, .error v =>
      if h : u = v then isTrue (by rw [h]) else isFalse (fun hh => h (by injection hh))
    | .ok _, .error _ => isFalse (fun hh => Except.noConfusion hh)
    | .error _, .ok _ => isFalse (fun hh => Except.noConfusion hh)

/-- `sorted(schema)`: iterating a `pl.Schema` yields its keys, so `sorted`
produces the sorted key list. -/
def sortedKeys (l : List (String × PolarsType)) : List String :=
  (keysOf l).mergeSort

/-- The `column {k} should be {v1} but is {v2}` entries of the aggregated
error, in schema order. -/
def badTypeLines (schema dfSchema : List (String × PolarsType)) :
    List (String × PolarsType × PolarsType) :=
  schema.filterMap (fun kv =>
    match lookupT dfSchema kv.1 with
    | some v2 => if v2 ≠ kv.2 then some (kv.1, kv.2, v2) else none
    | none => none)

/-- `_DataFrameSchema.validate`: exact (ordered) schema equality succeeds;
with equal sorted names and equal types per name the distinct order-mismatch
error is raised; otherwise the single aggregated error carrying the
redundant names (`set(R) - set(canonical)`), missing names
(`set(canonical) - set(R)`) and type-mismatch lines.  (In Python the type
comparison `df_schema[k]` sits behind the short-circuited name comparison,
so the `Option`-valued lookup here agrees with it whenever the guard lets it
run.) -/
def validate (schema : List (String × PolarsType)) (df : Frame) :
    Except SchemaError Frame :=
  if schema ≠ collectSchema df then
    if sortedKeys schema = sortedKeys (collectSchema df)
        ∧ schema.all (fun kv =>
            lookupT (collectSchema df) kv.1 == lookupT schema kv.1) = true then
      .error (.orderMismatch schema (collectSchema df))
    else
      .error (.mismatch
        ((keysOf (collectSchema df)).toFinset \ (keysOf schema).toFinset)
        ((keysOf schema).toFinset \ (keysOf (collectSchema df)).toFinset)
        (badTypeLines schema (collectSchema df)))
  else
    .ok df

theorem sortedKeys_eq_of_perm {l l' : List (String × PolarsType)}
    (h : List.Perm (keysOf l) (keysOf l')) : sortedKeys l = sortedKeys l' := by
  unfold sortedKeys
  exact List.eq_of_perm_of_sorted
    (((keysOf l).mergeSort_perm _).trans (h.trans ((keysOf l').mergeSort_perm _).symm))
    (List.sorted_mergeSort' _) (List.sorted_mergeSort' _)

theorem perm_of_sortedKeys_eq {l l' : List (String × PolarsType)}
    (h : sortedKeys l = sortedKeys l') : List.Perm (keysOf l) (keysOf l') := by
  unfold sortedKeys at h
  exact ((keysOf l).mergeSort_perm _).symm.trans (h ▸ ((keysOf l').mergeSort_perm _))

theorem lookupT_eq_some_iff {α : Type _} {l : List (String × α)}
    (hnod : (keysOf l).Nodup) {k : String} {v : α} :
    lookupT l k = some v ↔ (k, v) ∈ l := by
  induction l with
  | nil => simp [lookupT_nil]
  | cons hd tl ih =>
    obtain ⟨k0, v0⟩ := hd
    rw [keysOf_cons, List.nodup_cons] at hnod
    obtain ⟨hk0, hnod'⟩ := hnod
    rw [lookupT_cons, List.mem_cons]
    by_cases h : k0 = k
    · subst h
      rw [if_pos rfl]
      constructor
      · intro hv
        injection hv with hv
        exact Or.inl (by rw [hv])
      · rintro (heq | hmem)
        · rw [Prod.mk.injEq] at heq
          rw [heq.2]
        · exact absurd (List.mem_map_of_mem Prod.fst hmem) hk0
    · rw [if_neg h, ih hnod']
      constructor
      · exact Or.inr
      · rintro (heq | hmem)
        · rw [Prod.mk.injEq] at heq
          exact absurd heq.1.symm h
        · exact hmem

theorem mem_badTypeLines {schema dfs : List (String × PolarsType)}
    (hnod : (keysOf schema).Nodup) (n : String) (e a : PolarsType) :
    (n, e, a) ∈ badTypeLines schema dfs
    ↔ (lookupT schema n = some e ∧ lookupT dfs n = some a ∧ a ≠ e) := by
  unfold badTypeLines
  rw [List.mem_filterMap]
  constructor
  · rintro ⟨kv, hkv, hmatch⟩
    cases hl : lookupT dfs kv.1 with
    | none => rw [hl] at hmatch; cases hmatch
    | some v2 =>
      simp only [hl] at hmatch
      by_cases hv : v2 ≠ kv.2
      · rw [if_pos hv] at hmatch
        injection hmatch with hm
        rw [Prod.mk.injEq, Prod.mk.injEq] at hm
        obtain ⟨h1, h2, h3⟩ := hm
        subst h1; subst h2; subst h3
        refine ⟨(lookupT_eq_some_iff hnod).mpr ?_, hl, hv⟩
        obtain ⟨kv1, kv2⟩ := kv
        exact hkv
      · rw [if_neg hv] at hmatch; cases hmatch
  · rintro ⟨h1, h2, h3⟩
    refine ⟨(n, e), (lookupT_eq_some_iff hnod).mp h1, ?_⟩
    simp only [h2]
    rw [if_pos h3]

/-- C2: a runtime schema with exactly the canonical names and canonical type
for every name, in a different order, draws the order-mismatch error, a
constructor distinct from the aggregated mismatch error. -/
theorem C2_order_mismatch (schema : List (String × PolarsType)) (df : Frame)
    (hnodS : (keysOf schema).Nodup) (hnodR : (keysOf (collectSchema df)).Nodup)
    (hset : (keysOf schema).toFinset = (keysOf (collectSchema df)).toFinset)
    (htypes : ∀ k ∈ keysOf schema, lookupT (collectSchema df) k = lookupT schema k)
    (hne : schema ≠ collectSchema df) :
    validate schema df = .error (.orderMismatch schema (collectSchema df))
    ∧ ∀ r m bt, SchemaError.orderMismatch schema (collectSchema df)
        ≠ SchemaError.mismatch r m bt := by
  constructor
  · unfold validate
    rw [if_pos hne, if_pos]
    constructor
    · exact sortedKeys_eq_of_perm (List.perm_of_nodup_nodup_toFinset_eq hnodS hnodR hset)
    · rw [List.all_eq_true]
      intro kv hkv
      rw [htypes kv.1 (List.mem_map_of_mem Prod.fst hkv)]
      exact beq_self_eq_true _
  · intro r m bt h
    exact SchemaError.noConfusion h

/-- Witness for C2 at the spec's concrete scenario: schema
`{foo: Bool, bar: Int8}` against a correctly typed dataset with columns in
order `[bar, foo]`. -/
theorem C2_order_mismatch_witness :
    validate [("foo", .boolean), ("bar", .int8)]
        [⟨"bar", .int8, [.int 1]⟩, ⟨"foo", .boolean, [.bool true]⟩]
      = .error (.orderMismatch [("foo", .boolean), ("bar", .int8)]
          [("bar", .int8), ("foo", .boolean)]) :=
  (C2_order_mismatch [("foo", .boolean), ("bar", .int8)]
    [⟨"bar", .int8, [.int 1]⟩, ⟨"foo", .boolean, [.bool true]⟩]
    (by decide) (by decide) (by decide) (by decide) (by decide)).1

/-- C3: a mismatch that is not a pure reordering draws the single aggregated
error whose three components are exactly the redundant names (in the dataset
but not the canonical schema), the missing names (canonical but not in the
dataset) and the type mismatches on shared names. -/
theorem C3_aggregated_mismatch (schema : List (String × PolarsType)) (df : Frame)
    (hnodS : (keysOf schema).Nodup)
    (hne : schema ≠ collectSchema df)
    (hnotorder : ¬ ((keysOf schema).toFinset = (keysOf (collectSchema df)).toFinset
        ∧ ∀ k ∈ keysOf schema, lookupT (collectSchema df) k = lookupT schema k)) :
    validate schema df = .error (.mismatch
        ((keysOf (collectSchema df)).toFinset \ (keysOf schema).toFinset)
        ((keysOf schema).toFinset \ (keysOf (collectSchema df)).toFinset)
        (badTypeLines schema (collectSchema df)))
    ∧ (∀ n, n ∈ (keysOf (collectSchema df)).toFinset \ (keysOf schema).toFinset
        ↔ (n ∈ keysOf (collectSchema df) ∧ n ∉ keysOf schema))
    ∧ (∀ n, n ∈ (keysOf schema).toFinset \ (keysOf (collectSchema df)).toFinset
        ↔ (n ∈ keysOf schema ∧ n ∉ keysOf (collectSchema df)))
    ∧ (∀ n e a, (n, e, a) ∈ badTypeLines schema (collectSchema df)
        ↔ (lookupT schema n = some e ∧ lookupT (collectSchema df) n = some a ∧ a ≠ e)) := by
  refine ⟨?_, ?_, ?_, ?_⟩
  · unfold validate
    rw [if_pos hne, if_neg]
    rintro ⟨hs, ha⟩
    apply hnotorder
    constructor
    · exact List.toFinset_eq_of_perm _ _ (perm_of_sortedKeys_eq hs)
    · intro k hk
      unfold keysOf at hk
      rw [List.mem_map] at hk
      obtain ⟨kv, hkv, hfst⟩ := hk
      rw [List.all_eq_true] at ha
      have hkv2 := ha kv hkv
      rw [beq_iff_eq] at hkv2
      rw [← hfst]
      exact hkv2
  · intro n
    simp [Finset.mem_sdiff, List.mem_toFinset]
  · intro n
    simp [Finset.mem_sdiff, List.mem_toFinset]
  · intro n e a
    exact mem_badTypeLines hnodS n e a

/-- Witness for C3 at the spec's concrete scenario: a dataset missing the
declared column `bar` and carrying the undeclared column `qux`; the one
aggregated error names both. -/
theorem C3_aggregated_mismatch_witness :
    validate [("foo", .boolean), ("bar", .int8)] [⟨"foo", .boolean, []⟩, ⟨"qux", .string, []⟩]
      = .error (.mismatch {"qux"} {"bar"} []) := by
  have h := (C3_aggregated_mismatch [("foo", .boolean), ("bar", .int8)]
    [⟨"foo", .boolean, []⟩, ⟨"qux", .string, []⟩]
    (by decide) (by decide) (by decide)).1
  rw [h]
  congr 1

/-- C7: `validate` succeeds on a dataset whose runtime schema equals the
canonical one, returns that dataset itself, and is idempotent: a successful
validation's result re-validates to the same result. -/
theorem validate_eq_ok {schema : List (String × PolarsType)} {df : Frame}
    (h : collectSchema df = schema) : validate schema df = .ok df := by
  unfold validate
  rw [if_neg]
  intro hne
  exact hne h.symm

theorem validate_ok_inv {schema : List (String × PolarsType)} {df : Frame} {out : Frame}
    (hout : validate schema df = .ok out) : out = df ∧ collectSchema df = schema := by
  unfold validate at hout
  by_cases h : schema ≠ collectSchema df
  · rw [if_pos h] at hout
    split at hout <;> cases hout
  · rw [if_neg h] at hout
    injection hout with hdf
    subst hdf
    exact ⟨rfl, (not_ne_iff.mp h).symm⟩

theorem C7_validate_idempotent (schema : List (String × PolarsType)) (df : Frame) :
    (collectSchema df = schema → validate schema df = .ok df)
    ∧ ∀ out, validate schema df = .ok out → out = df ∧ validate schema out = .ok out := by
  refine ⟨fun h => validate_eq_ok h, fun out hout => ?_⟩
  obtain ⟨rfl, hcs⟩ := validate_ok_inv hout
  exact ⟨rfl, validate_eq_ok hcs⟩

/-- Witness for C7 at a conformant concrete dataset. -/
theorem C7_validate_idempotent_witness :
    validate [("foo", .boolean)] [⟨"foo", .boolean, [.bool false]⟩]
        = .ok [⟨"foo", .boolean, [.bool false]⟩]
    ∧ ([⟨"foo", .boolean, [.bool false]⟩] : Frame) = [⟨"foo", .boolean, [.bool false]⟩]
    ∧ validate [("foo", .boolean)] [⟨"foo", .boolean, [.bool false]⟩]
        = .ok [⟨"foo", .boolean, [.bool false]⟩] := by
  have h1 := (C7_validate_idempotent [("foo", .boolean)]
    [⟨"foo", .boolean, [.bool false]⟩]).1 (by decide)
  have h2 := (C7_validate_idempotent [("foo", .boolean)]
    [⟨"foo", .boolean, [.bool false]⟩]).2 _ h1
  exact ⟨h1, h2.1, h2.2⟩

/-- `df.with_columns(**{col: pl.lit(None).cast(typ) for col, typ in
cls._schema.items() if col not in df})`: append an all-null column of the
declared dtype, broadcast to the dataframe's height, for every canonical
column absent from the dataframe (in schema order). -/
def addMissingNull (schema : List (String × PolarsType)) (df : Frame) : Frame :=
  df ++ (schema.filter (fun kv => !(hasCol df kv.1))).map
    (fun kv => { name := kv.1, dtype := kv.2, values := List.replicate (height df) PValue.null })

/-- `pl.col(c).cast(dtype)` applied to a whole column (strict cast: any
value that fails to convert raises). -/
def castSeries (s : Series) (t : PolarsType) : Except SchemaError Series :=
  match s.values.mapM (fun v => castValue v t) with
  | some vs => .ok { name := s.name, dtype := t, values := vs }
  | none => .error (.castFail s.name)

/-- Evaluation of the `select` expression list: each retained `(c, dtype)`
yields `pl.col(c).cast(dtype)` when `dtype.is_numeric() and upcast_numeric`,
and the bare column otherwise. -/
def selectCoerceList (df : Frame) (upcast : Bool) :
    List (String × PolarsType) → Except SchemaError Frame
  | [] => .ok []
  | kv :: rest =>
    match getCol df kv.1 with
    | none => .error (.columnNotFound kv.1)
    | some s =>
      match (if kv.2.is_numeric && upcast then castSeries s kv.2 else .ok s) with
      | .ok s' =>
        match selectCoerceList df upcast rest with
        | .ok out => .ok (s' :: out)
        | .error e => .error e
      | .error e => .error e

/-- `df.select([pl.col(c).cast(dtype) if (dtype.is_numeric() and
upcast_numeric) else c for c, dtype in cls._schema.items() if c in df])`. -/
def selectCoerce (schema : List (String × PolarsType)) (upcast : Bool) (df : Frame) :
    Except SchemaError Frame :=
  selectCoerceList df upcast (schema.filter (fun kv => hasCol df kv.1))

/-- `_DataFrameSchema.coerce(df, allow_missing, upcast_numeric)`: optionally
fill missing canonical columns with typed nulls, restrict to the canonical
columns present (silently dropping the rest) with numeric upcasts, then
delegate to `validate`. -/
def coerce (schema : List (String × PolarsType)) (df : Frame)
    (allowMissing upcast : Bool) : Except SchemaError Frame :=
  match selectCoerce schema upcast
      (if allowMissing then addMissingNull schema df else df) with
  | .ok selected => validate schema selected
  | .error e => .error e

/-- Spec-side: `t1` is a strictly narrower numeric variant of `t2` (same
numeric family, strictly smaller width). -/
def numericNarrower (t1 t2 : PolarsType) : Bool :=
  (match t1.intBits, t2.intBits with
   | some a, some b => decide (a < b)
   | _, _ => false)
  || (match t1.floatBits, t2.floatBits with
      | some a, some b => decide (a < b)
      | _, _ => false)

/-- The frame `coerce` produces from an aligned dataframe under
`upcast_numeric=true`: same columns and values, dtypes replaced by the
declared ones. -/
def upcastFrame (df : Frame) (schema : List (String × PolarsType)) : Frame :=
  List.zipWith (fun (s : Series) (kv : String × PolarsType) =>
    { name := kv.1, dtype := kv.2, values := s.values }) df schema

theorem narrower_is_numeric : ∀ t1 t2 : PolarsType,
    numericNarrower t1 t2 = true → t2.is_numeric = true := by decide

theorem narrower_ne : ∀ t1 t2 : PolarsType,
    numericNarrower t1 t2 = true → t1 ≠ t2 := by decide

theorem hasCol_cons {x : Series} {df : Frame} {c : String} :
    hasCol (x :: df) c = (x.name == c || hasCol df c) := rfl

theorem getCol_cons_ne {x : Series} {df : Frame} {c : String} (h : ¬ x.name = c) :
    getCol (x :: df) c = getCol df c := by
  have hb : (x.name == c) = false := by simp [h]
  simp [getCol, List.find?_cons, hb]

theorem getCol_cons_eq {x : Series} {df : Frame} {c : String} (h : x.name = c) :
    getCol (x :: df) c = some x := by
  have hb : (x.name == c) = true := by simp [h]
  simp [getCol, List.find?_cons, hb]

theorem getCol_name {df : Frame} {c : String} {s : Series}
    (h : getCol df c = some s) : s.name = c := by
  have := List.find?_some h
  rwa [beq_iff_eq] at this

theorem getCol_mem {df : Frame} {c : String} {s : Series}
    (h : getCol df c = some s) : s ∈ df :=
  List.mem_of_find?_eq_some h

theorem getCol_isSome (df : Frame) (c : String) :
    (getCol df c).isSome = hasCol df c := by
  induction df with
  | nil => rfl
  | cons s rest ih =>
    rw [hasCol_cons]
    cases hb : s.name == c with
    | true =>
      rw [getCol_cons_eq (beq_iff_eq.mp hb)]
      rfl
    | false =>
      rw [getCol_cons_ne (by simpa using hb), ih, Bool.false_or]

theorem getCol_eq_none_of_hasCol_false {df : Frame} {c : String}
    (h : hasCol df c = false) : getCol df c = none := by
  have h2 := getCol_isSome df c
  rw [h] at h2
  cases hg : getCol df c with
  | none => rfl
  | some s => rw [hg] at h2; cases h2

theorem getCol_append_cons {A B : Frame} {x : Series} {c : String}
    (h : ¬ x.name = c) : getCol (A ++ x :: B) c = getCol (A ++ B) c := by
  have hb : (x.name == c) = false := by simp [h]
  simp only [getCol, List.find?_append, List.find?_cons, hb]

theorem hasCol_append_cons {A B : Frame} {x : Series} {c : String}
    (h : ¬ x.name = c) : hasCol (A ++ x :: B) c = hasCol (A ++ B) c := by
  have hb : (x.name == c) = false := by simp [h]
  simp only [hasCol, List.any_append, List.any_cons, hb, Bool.false_or]

theorem mapM_some_id {α : Type _} {f : α → Option α} :
    ∀ {l : List α}, (∀ x ∈ l, f x = some x) → l.mapM f = some l := by
  intro l h
  induction l with
  | nil => rfl
  | cons x xs ih =>
    rw [List.mapM_cons, h x (List.mem_cons_self x xs),
      ih (fun y hy => h y (List.mem_cons_of_mem x hy))]
    rfl

theorem mapM_length {α β : Type _} {f : α → Option β} :
    ∀ {l : List α} {l' : List β}, l.mapM f = some l' → l'.length = l.length := by
  intro l
  induction l with
  | nil =>
    intro l' h
    rw [List.mapM_nil] at h
    injection h with h
    rw [← h]
    rfl
  | cons x xs ih =>
    intro l' h
    rw [List.mapM_cons] at h
    cases hx : f x with
    | none => rw [hx] at h; cases h
    | some y =>
      rw [hx] at h
      cases hxs : xs.mapM f with
      | none => rw [hxs] at h; cases h
      | some ys =>
        rw [hxs] at h
        injection h with h
        rw [← h, List.length_cons, List.length_cons, ih hxs]

theorem inIntRange_mono {a b : Nat} (hab : a ≤ b) {n : Int}
    (h : inIntRange a n = true) : inIntRange b n = true := by
  unfold inIntRange at h ⊢
  rw [Bool.and_eq_true, decide_eq_true_eq, decide_eq_true_eq] at h ⊢
  have hpow : (2 : Int) ^ (a - 1) ≤ 2 ^ (b - 1) :=
    pow_le_pow_right₀ (by norm_num) (Nat.sub_le_sub_right hab 1)
  exact ⟨le_trans (neg_le_neg hpow) h.1, lt_of_lt_of_le h.2 hpow⟩

theorem narrower_int {t1 t2 : PolarsType} {a : Nat} (ha : t1.intBits = some a)
    (hn : numericNarrower t1 t2 = true) :
    ∃ b, t2.intBits = some b ∧ a < b := by
  cases t1 <;> cases t2 <;>
    simp_all [PolarsType.intBits, PolarsType.floatBits, numericNarrower]

theorem narrower_float {t1 t2 : PolarsType} {a : Nat} (ha : t1.floatBits = some a)
    (hn : numericNarrower t1 t2 = true) :
    ∃ b, t2.floatBits = some b ∧ a < b := by
  cases t1 <;> cases t2 <;>
    simp_all [PolarsType.intBits, PolarsType.floatBits, numericNarrower]

/-- A value valid at a narrower numeric dtype upcasts unchanged. -/
theorem castValue_of_narrower {t1 t2 : PolarsType} {v : PValue}
    (hval : validValue t1 v = true) (hn : numericNarrower t1 t2 = true) :
    castValue v t2 = some v := by
  cases v with
  | null => rfl
  | bool b =>
    exfalso
    simp only [validValue, decide_eq_true_eq] at hval
    subst hval
    revert hn t2
    decide
  | str s2 =>
    exfalso
    simp only [validValue, decide_eq_true_eq] at hval
    subst hval
    revert hn t2
    decide
  | int n =>
    simp only [validValue] at hval
    cases ha : t1.intBits with
    | none => rw [ha] at hval; exact absurd hval (by simp)
    | some a =>
      rw [ha] at hval
      obtain ⟨b, hb, hab⟩ := narrower_int ha hn
      simp only [castValue, hb]
      rw [if_pos (inIntRange_mono (le_of_lt hab) hval)]
  | float q =>
    simp only [validValue] at hval
    obtain ⟨a, ha⟩ := Option.isSome_iff_exists.mp hval
    obtain ⟨b, hb, -⟩ := narrower_float ha hn
    simp [castValue, hb]

theorem castSeries_of_narrower {s : Series} {t2 : PolarsType}
    (hval : ∀ v ∈ s.values, validValue s.dtype v = true)
    (hn : numericNarrower s.dtype t2 = true) :
    castSeries s t2 = .ok { name := s.name, dtype := t2, values := s.values } := by
  unfold castSeries
  rw [mapM_some_id (fun v hv => castValue_of_narrower (hval v hv) hn)]

theorem castSeries_ok {s : Series} {t : PolarsType} {s' : Series}
    (h : castSeries s t = .ok s') :
    ∃ vs, s.values.mapM (fun v => castValue v t) = some vs
      ∧ s' = { name := s.name, dtype := t, values := vs } := by
  unfold castSeries at h
  cases hm : s.values.mapM (fun v => castValue v t) with
  | none =>
    simp only [hm] at h
    exact Except.noConfusion h
  | some vs =>
    simp only [hm] at h
    injection h with h
    exact ⟨vs, rfl, h.symm⟩

theorem selectCoerceList_congr {df df' : Frame} {up : Bool} :
    ∀ {l : List (String × PolarsType)},
      (∀ kv ∈ l, getCol df kv.1 = getCol df' kv.1) →
      selectCoerceList df up l = selectCoerceList df' up l := by
  intro l h
  induction l with
  | nil => rfl
  | cons kv rest ih =>
    simp only [selectCoerceList, h kv (List.mem_cons_self _ _),
      ih (fun y hy => h y (List.mem_cons_of_mem _ hy))]

theorem selectCoerceList_ok_cons {df : Frame} {up : Bool} {kv : String × PolarsType}
    {rest : List (String × PolarsType)} {out : Frame}
    (h : selectCoerceList df up (kv :: rest) = .ok out) :
    ∃ s s' out', getCol df kv.1 = some s
      ∧ (if kv.2.is_numeric && up then castSeries s kv.2 else Except.ok s) = .ok s'
      ∧ selectCoerceList df up rest = .ok out'
      ∧ out = s' :: out' := by
  unfold selectCoerceList at h
  cases hg : getCol df kv.1 with
  | none =>
    simp only [hg] at h
    exact Except.noConfusion h
  | some s =>
    simp only [hg] at h
    cases hc : (if kv.2.is_numeric && up then castSeries s kv.2 else Except.ok s) with
    | error e =>
      simp only [hc] at h
      exact Except.noConfusion h
    | ok s' =>
      simp only [hc] at h
      cases hr : selectCoerceList df up rest with
      | error e =>
        simp only [hr] at h
        exact Except.noConfusion h
      | ok out' =>
        simp only [hr] at h
        injection h with h
        exact ⟨s, s', out', rfl, hc, rfl, h.symm⟩

/-- On an aligned dataframe (same names in the same order, every dtype a
strictly narrower numeric variant, values valid), the `select` step with
`upcast_numeric=true` succeeds and produces the declared dtypes with the
original values. -/
theorem selectCoerce_aligned_upcast :
    ∀ {df : Frame} {schema : List (String × PolarsType)},
      List.Forall₂ (fun (s : Series) (kv : String × PolarsType) =>
        s.name = kv.1 ∧ numericNarrower s.dtype kv.2 = true) df schema →
      (keysOf schema).Nodup →
      (∀ s ∈ df, ∀ v ∈ s.values, validValue s.dtype v = true) →
      selectCoerce schema true df = .ok (upcastFrame df schema)
  | _, _, .nil, _, _ => rfl
  | s :: df', kv :: schema', .cons hsk htail, hnod, hval => by
    obtain ⟨hname, hnarrow⟩ := hsk
    rw [keysOf_cons, List.nodup_cons] at hnod
    obtain ⟨hk, hnod'⟩ := hnod
    have hne : ∀ kv' ∈ schema', ¬ s.name = kv'.1 := by
      intro kv' hkv' hh
      exact hk ((hname.symm.trans hh) ▸ List.mem_map_of_mem Prod.fst hkv')
    have hhead : hasCol (s :: df') kv.1 = true := by
      rw [hasCol_cons]
      simp [hname]
    have hfilter : schema'.filter (fun kv' => hasCol (s :: df') kv'.1)
        = schema'.filter (fun kv' => hasCol df' kv'.1) := by
      apply List.filter_congr
      intro kv' hkv'
      rw [hasCol_cons]
      have hb : (s.name == kv'.1) = false := by simp [hne kv' hkv']
      rw [hb, Bool.false_or]
    have hrest := selectCoerce_aligned_upcast htail hnod'
      (fun t ht => hval t (List.mem_cons_of_mem _ ht))
    unfold selectCoerce at hrest ⊢
    rw [List.filter_cons]
    simp only [hhead, if_true]
    have hskip : selectCoerceList (s :: df') true
          (schema'.filter (fun kv' => hasCol df' kv'.1))
        = selectCoerceList df' true (schema'.filter (fun kv' => hasCol df' kv'.1)) := by
      apply selectCoerceList_congr
      intro kv' hkv'
      exact getCol_cons_ne (hne kv' (List.mem_of_mem_filter hkv'))
    have hnum : (kv.2.is_numeric && true) = true := by
      rw [Bool.and_true]
      exact narrower_is_numeric _ _ hnarrow
    have hcast : castSeries s kv.2
        = .ok { name := s.name, dtype := kv.2, values := s.values } :=
      castSeries_of_narrower (hval s (List.mem_cons_self _ _)) hnarrow
    simp only [selectCoerceList, hfilter, getCol_cons_eq hname, hnum, if_true, hcast,
      hskip, hrest]
    simp only [upcastFrame, List.zipWith_cons_cons, hname]

/-- With `upcast_numeric=false`, the `select` step on a dataframe with the
canonical names in the canonical order passes every column through
unchanged. -/
theorem selectCoerce_aligned_noupcast :
    ∀ {df : Frame} {schema : List (String × PolarsType)},
      List.Forall₂ (fun (s : Series) (kv : String × PolarsType) => s.name = kv.1) df schema →
      (keysOf schema).Nodup →
      selectCoerce schema false df = .ok df
  | _, _, .nil, _ => rfl
  | s :: df', kv :: schema', .cons hname htail, hnod => by
    rw [keysOf_cons, List.nodup_cons] at hnod
    obtain ⟨hk, hnod'⟩ := hnod
    have hne : ∀ kv' ∈ schema', ¬ s.name = kv'.1 := by
      intro kv' hkv' hh
      exact hk ((hname.symm.trans hh) ▸ List.mem_map_of_mem Prod.fst hkv')
    have hhead : hasCol (s :: df') kv.1 = true := by
      rw [hasCol_cons]
      simp [hname]
    have hfilter : schema'.filter (fun kv' => hasCol (s :: df') kv'.1)
        = schema'.filter (fun kv' => hasCol df' kv'.1) := by
      apply List.filter_congr
      intro kv' hkv'
      rw [hasCol_cons]
      have hb : (s.name == kv'.1) = false := by simp [hne kv' hkv']
      rw [hb, Bool.false_or]
    have hrest := selectCoerce_aligned_noupcast htail hnod'
    unfold selectCoerce at hrest ⊢
    rw [List.filter_cons]
    simp only [hhead, if_true]
    have hskip : selectCoerceList (s :: df') false
          (schema'.filter (fun kv' => hasCol df' kv'.1))
        = selectCoerceList df' false (schema'.filter (fun kv' => hasCol df' kv'.1)) := by
      apply selectCoerceList_congr
      intro kv' hkv'
      exact getCol_cons_ne (hne kv' (List.mem_of_mem_filter hkv'))
    simp only [selectCoerceList, hfilter, getCol_cons_eq hname, Bool.and_false, hskip, hrest]
    rfl

theorem collectSchema_upcastFrame :
    ∀ {df : Frame} {schema : List (String × PolarsType)},
      List.Forall₂ (fun (s : Series) (kv : String × PolarsType) => s.name = kv.1) df schema →
      collectSchema (upcastFrame df schema) = schema
  | _, _, .nil => rfl
  | s :: df', kv :: schema', .cons hname htail => by
    show (kv.1, kv.2) :: collectSchema (upcastFrame df' schema') = kv :: schema'
    rw [collectSchema_upcastFrame htail]

/-- Structure of a successful `select` step: each retained schema entry's
output column is the (possibly cast) input column of that name, and every
output column arises from some retained entry. -/
theorem getCol_selectCoerceList {df : Frame} {up : Bool} :
    ∀ {l : List (String × PolarsType)} {out : Frame},
      selectCoerceList df up l = .ok out →
      (keysOf l).Nodup →
      (∀ kv ∈ l, ∃ s, getCol df kv.1 = some s
        ∧ ∀ s', (if kv.2.is_numeric && up then castSeries s kv.2 else Except.ok s) = .ok s' →
            getCol out kv.1 = some s')
      ∧ ∀ s' ∈ out, ∃ kv ∈ l, ∃ s, s ∈ df ∧ s'.name = kv.1
          ∧ s'.values.length = s.values.length := by
  intro l
  induction l with
  | nil =>
    intro out h _
    unfold selectCoerceList at h
    injection h with h
    subst h
    exact ⟨fun kv hkv => absurd hkv (List.not_mem_nil kv),
      fun s' hs' => absurd hs' (List.not_mem_nil s')⟩
  | cons kv0 rest ih =>
    intro out h hnod
    obtain ⟨s, s', out', hg, hc, hr, rfl⟩ := selectCoerceList_ok_cons h
    rw [keysOf_cons, List.nodup_cons] at hnod
    obtain ⟨hk0, hnod'⟩ := hnod
    obtain ⟨ihA, ihB⟩ := ih hr hnod'
    have hsname : s.name = kv0.1 := getCol_name hg
    have hs'name : s'.name = s.name := by
      by_cases hcond : (kv0.2.is_numeric && up) = true
      · rw [if_pos hcond] at hc
        obtain ⟨vs, -, rfl⟩ := castSeries_ok hc
        rfl
      · rw [if_neg hcond] at hc
        injection hc with hc
        rw [← hc]
    constructor
    · intro kv hkv
      rcases List.mem_cons.mp hkv with rfl | hmem
      · refine ⟨s, hg, fun s'' hs'' => ?_⟩
        rw [hc] at hs''
        injection hs'' with hs''
        subst hs''
        rw [getCol_cons_eq (hs'name.trans hsname)]
      · obtain ⟨t, hgt, hout⟩ := ihA kv hmem
        refine ⟨t, hgt, fun s'' hs'' => ?_⟩
        have hne : ¬ s'.name = kv.1 := by
          rw [hs'name, hsname]
          intro heq
          exact hk0 (heq ▸ List.mem_map_of_mem Prod.fst hmem)
        rw [getCol_cons_ne hne]
        exact hout s'' hs''
    · intro t' ht'
      rcases List.mem_cons.mp ht' with rfl | hmem'
      · refine ⟨kv0, List.mem_cons_self _ _, s, getCol_mem hg, hs'name.trans hsname, ?_⟩
        by_cases hcond : (kv0.2.is_numeric && up) = true
        · rw [if_pos hcond] at hc
          obtain ⟨vs, hvs, rfl⟩ := castSeries_ok hc
          exact mapM_length hvs
        · rw [if_neg hcond] at hc
          injection hc with hc
          rw [← hc]
      · obtain ⟨kv, hkv, t, htdf, hname, hlen⟩ := ihB t' hmem'
        exact ⟨kv, List.mem_cons_of_mem _ hkv, t, htdf, hname, hlen⟩

/-- C4: on a dataset whose columns are (same names, same order) strictly
narrower numeric variants of the declared dtypes, `coerce` with
`upcast_numeric=true` succeeds and the result carries exactly the declared
schema (every column has the declared dtype); the same call with
`upcast_numeric=false` raises the aggregated schema-mismatch error; and for
any schema and dataset whatsoever, a column whose declared dtype is
non-numeric passes through `coerce` unchanged (never cast). -/
theorem C4_coerce_upcast (schema : List (String × PolarsType)) (df : Frame)
    (hnod : (keysOf schema).Nodup)
    (halign : List.Forall₂ (fun (s : Series) (kv : String × PolarsType) =>
        s.name = kv.1 ∧ numericNarrower s.dtype kv.2 = true) df schema)
    (hval : ∀ s ∈ df, ∀ v ∈ s.values, validValue s.dtype v = true)
    (hne : df ≠ []) :
    (∃ out, coerce schema df false true = .ok out ∧ collectSchema out = schema)
    ∧ (∃ r m bt, coerce schema df false false = .error (.mismatch r m bt))
    ∧ (∀ (schema2 : List (String × PolarsType)) (df2 : Frame) (am up : Bool) out2,
        (keysOf schema2).Nodup →
        coerce schema2 df2 am up = .ok out2 →
        ∀ kv ∈ schema2, kv.2.is_numeric = false →
          getCol out2 kv.1 =
            getCol (if am then addMissingNull schema2 df2 else df2) kv.1) := by
  have hnames : List.Forall₂ (fun (s : Series) (kv : String × PolarsType) =>
      s.name = kv.1) df schema := halign.imp (fun _ _ h => h.1)
  refine ⟨?_, ?_, ?_⟩
  · refine ⟨upcastFrame df schema, ?_, collectSchema_upcastFrame hnames⟩
    unfold coerce
    rw [if_neg (by simp : ¬ (false = true)),
      selectCoerce_aligned_upcast halign hnod hval]
    exact validate_eq_ok (collectSchema_upcastFrame hnames)
  · cases df with
    | nil => exact absurd rfl hne
    | cons s0 df'' =>
      rcases halign with _ | @⟨_, kv0, _, schema'', hsk, htail⟩
      obtain ⟨hname0, hnarrow0⟩ := hsk
      have hnames' : List.Forall₂ (fun (s : Series) (kv : String × PolarsType) =>
          s.name = kv.1) (s0 :: df'') (kv0 :: schema'') :=
        .cons hname0 (htail.imp (fun _ _ h => h.1))
      have hneq : (kv0 :: schema'' : List (String × PolarsType))
          ≠ collectSchema (s0 :: df'') := by
        intro heq
        unfold collectSchema at heq
        rw [List.map_cons] at heq
        injection heq with h1 h2
        have h3 : kv0.2 = s0.dtype := by rw [h1]
        exact narrower_ne _ _ hnarrow0 h3.symm
      have hcond : ¬ (sortedKeys (kv0 :: schema'')
            = sortedKeys (collectSchema (s0 :: df''))
          ∧ ((kv0 :: schema'').all (fun kv =>
              lookupT (collectSchema (s0 :: df'')) kv.1
                == lookupT (kv0 :: schema'' : List (String × PolarsType)) kv.1)) = true) := by
        rintro ⟨-, hall⟩
        rw [List.all_eq_true] at hall
        have h0 := hall kv0 (List.mem_cons_self _ _)
        rw [beq_iff_eq] at h0
        have hL : lookupT (collectSchema (s0 :: df'')) kv0.1 = some s0.dtype := by
          show lookupT ((s0.name, s0.dtype) :: collectSchema df'') kv0.1 = _
          rw [lookupT_cons, if_pos hname0]
        have hR : lookupT (kv0 :: schema'' : List (String × PolarsType)) kv0.1
            = some kv0.2 := by
          obtain ⟨k0, t0⟩ := kv0
          rw [lookupT_cons, if_pos rfl]
        rw [hL, hR] at h0
        injection h0 with h0
        exact narrower_ne _ _ hnarrow0 h0
      refine ⟨(keysOf (collectSchema (s0 :: df''))).toFinset
          \ (keysOf (kv0 :: schema'' : List (String × PolarsType))).toFinset,
        (keysOf (kv0 :: schema'' : List (String × PolarsType))).toFinset
          \ (keysOf (collectSchema (s0 :: df''))).toFinset,
        badTypeLines (kv0 :: schema'') (collectSchema (s0 :: df'')), ?_⟩
      unfold coerce
      rw [if_neg (by simp : ¬ (false = true)),
        selectCoerce_aligned_noupcast hnames' hnod]
      show validate _ _ = _
      unfold validate
      rw [if_pos hneq, if_neg hcond]
  · intro schema2 df2 am up out2 hnod2 hok kv hkv hnum
    unfold coerce at hok
    cases hsel : selectCoerce schema2 up
        (if am then addMissingNull schema2 df2 else df2) with
    | error e =>
      simp only [hsel] at hok
      exact Except.noConfusion hok
    | ok sel =>
      simp only [hsel] at hok
      obtain ⟨rfl, -⟩ := validate_ok_inv hok
      unfold selectCoerce at hsel
      have hsub : (keysOf (schema2.filter (fun kv' =>
          hasCol (if am then addMissingNull schema2 df2 else df2) kv'.1))).Nodup :=
        List.Nodup.sublist ((List.filter_sublist _).map Prod.fst) hnod2
      by_cases hpres : hasCol (if am then addMissingNull schema2 df2 else df2) kv.1 = true
      · have hmemf : kv ∈ schema2.filter (fun kv' =>
            hasCol (if am then addMissingNull schema2 df2 else df2) kv'.1) :=
          List.mem_filter.mpr ⟨hkv, hpres⟩
        obtain ⟨A, -⟩ := getCol_selectCoerceList hsel hsub
        obtain ⟨s, hs, hout⟩ := A kv hmemf
        have hfalse : (kv.2.is_numeric && up) = false := by
          rw [hnum, Bool.false_and]
        have hgout : getCol out2 kv.1 = some s :=
          hout s (by rw [if_neg (by simp [hfalse])])
        rw [hgout, hs]
      · have hpf : hasCol (if am then addMissingNull schema2 df2 else df2) kv.1 = false :=
          Bool.eq_false_iff.mpr hpres
        rw [getCol_eq_none_of_hasCol_false hpf]
        obtain ⟨-, B⟩ := getCol_selectCoerceList hsel hsub
        unfold getCol
        rw [List.find?_eq_none]
        intro s' hs' hbeq
        rw [beq_iff_eq] at hbeq
        obtain ⟨kv', hkv', t, -, hname', -⟩ := B s' hs'
        have hkvp := (List.mem_filter.mp hkv').2
        rw [hbeq] at hname'
        rw [← hname'] at hkvp
        rw [hpf] at hkvp
        exact Bool.noConfusion hkvp

/-- The schema of the spec's upcast scenario (`{icol: Int64, fcol: Float64}`). -/
def schemaC4 : List (String × PolarsType) := [("icol", .int64), ("fcol", .float64)]

/-- The dataset of the spec's upcast scenario (`icol: Int16, fcol: Float16`). -/
def dfC4 : Frame :=
  [⟨"icol", .int16, [.int 1, .int 2, .int 3]⟩,
   ⟨"fcol", .float16, [.float 1, .float 2, .float 3]⟩]

/-- Witness for C4 at the spec's concrete upcast scenario. -/
theorem C4_coerce_upcast_witness :
    (∃ out, coerce schemaC4 dfC4 false true = .ok out ∧ collectSchema out = schemaC4)
    ∧ (∃ r m bt, coerce schemaC4 dfC4 false false = .error (.mismatch r m bt)) := by
  have h := C4_coerce_upcast schemaC4 dfC4 (by decide)
    (.cons ⟨rfl, by decide⟩ (.cons ⟨rfl, by decide⟩ .nil)) (by decide) (by decide)
  exact ⟨h.1, h.2.1⟩

theorem hasCol_of_getCol_some {df : Frame} {c : String} {s : Series}
    (h : getCol df c = some s) : hasCol df c = true := by
  rw [← getCol_isSome, h]
  rfl

theorem mem_addMissingNull_lengths {schema : List (String × PolarsType)} {df : Frame}
    (hwf : wfFrame df) :
    ∀ s ∈ addMissingNull schema df, s.values.length = height df := by
  intro s hs
  rcases List.mem_append.mp hs with h | h
  · exact hwf.2 s h
  · rw [List.mem_map] at h
    obtain ⟨kv, -, rfl⟩ := h
    exact List.length_replicate _ _

theorem height_eq_of_mem_lengths {df : Frame} {n : Nat}
    (hne : df ≠ []) (hall : ∀ s ∈ df, s.values.length = n) : height df = n := by
  cases df with
  | nil => exact absurd rfl hne
  | cons s rest => exact hall s (List.mem_cons_self _ _)

/-- A canonical column absent from the dataframe appears after
`with_columns` as the all-null column of the declared dtype. -/
theorem getCol_addMissingNull_missing {schema : List (String × PolarsType)} {df : Frame}
    {C : String} {tC : PolarsType}
    (hnod : (keysOf schema).Nodup) (hmem : (C, tC) ∈ schema)
    (hmiss : hasCol df C = false) :
    getCol (addMissingNull schema df) C
      = some ⟨C, tC, List.replicate (height df) PValue.null⟩ := by
  have hmain : ∀ (l : List (String × PolarsType)), (keysOf l).Nodup → (C, tC) ∈ l →
      ((l.filter (fun kv => !(hasCol df kv.1))).map
        (fun kv => (⟨kv.1, kv.2, List.replicate (height df) PValue.null⟩ : Series))).find?
          (fun s => s.name == C)
      = some ⟨C, tC, List.replicate (height df) PValue.null⟩ := by
    intro l
    induction l with
    | nil => intro _ hm; cases hm
    | cons kv0 rest ih =>
      intro hnod0 hm
      rw [keysOf_cons, List.nodup_cons] at hnod0
      obtain ⟨hk0, hnod'⟩ := hnod0
      rcases List.mem_cons.mp hm with heq | hmem'
      · rw [← heq]
        rw [List.filter_cons, if_pos (by rw [hmiss]; rfl), List.map_cons, List.find?_cons]
        have hb : ((C, tC).1 == C) = true := by simp
        simp only [hb]
      · have hne0 : (kv0.1 == C) = false := by
          simp only [beq_eq_false_iff_ne, ne_eq]
          intro heq0
          exact hk0 (heq0 ▸ List.mem_map_of_mem Prod.fst hmem')
        by_cases hp : (!(hasCol df kv0.1)) = true
        · rw [List.filter_cons, if_pos hp, List.map_cons, List.find?_cons]
          simp only [hne0]
          exact ih hnod' hmem'
        · rw [List.filter_cons, if_neg hp]
          exact ih hnod' hmem'
  unfold addMissingNull getCol
  rw [List.find?_append]
  have hdf : df.find? (fun s => s.name == C) = none := getCol_eq_none_of_hasCol_false hmiss
  rw [hdf, Option.none_or]
  exact hmain schema hnod hmem

/-- Selecting never looks at a column all of whose occurrences sit strictly
between columns of other names: inserting a column whose name is outside the
schema anywhere leaves the `select` step unchanged. -/
theorem selectCoerce_append_cons (schema : List (String × PolarsType)) (up : Bool)
    (A B : Frame) (x : Series) (hx : ∀ kv ∈ schema, ¬ (kv.1 : String) = x.name) :
    selectCoerce schema up (A ++ x :: B) = selectCoerce schema up (A ++ B) := by
  unfold selectCoerce
  rw [List.filter_congr (fun kv hkv => by
    rw [@hasCol_append_cons A B x kv.1 (fun hh => (hx kv hkv) hh.symm)])]
  exact selectCoerceList_congr (fun kv hkv =>
    @getCol_append_cons A B x kv.1 (fun hh => (hx kv (List.mem_of_mem_filter hkv)) hh.symm))

/-- C5: `coerce(df, allow_missing=true)` returns each absent declared column
`C` present, entirely null, typed exactly as declared, with the input's row
count; and `coerce` silently drops columns outside the canonical schema — a
dataframe extended with such a column coerces to exactly the same result
(in particular no error is ever reported for it). -/
theorem C5_coerce_missing_drop (schema : List (String × PolarsType)) (df : Frame)
    (hnod : (keysOf schema).Nodup) (hwf : wfFrame df) :
    (∀ (C : String) (tC : PolarsType) (up : Bool) out,
        (C, tC) ∈ schema → hasCol df C = false →
        coerce schema df true up = .ok out →
        getCol out C = some ⟨C, tC, List.replicate (height df) PValue.null⟩
          ∧ height out = height df)
    ∧ (∀ (am up : Bool) (x : Series), x.name ∉ keysOf schema →
        x.values.length = height df →
        coerce schema (df ++ [x]) am up = coerce schema df am up) := by
  constructor
  · intro C tC up out hmem hmiss hok
    unfold coerce at hok
    rw [if_pos rfl] at hok
    cases hsel : selectCoerce schema up (addMissingNull schema df) with
    | error e =>
      simp only [hsel] at hok
      exact Except.noConfusion hok
    | ok sel =>
      simp only [hsel] at hok
      obtain ⟨rfl, -⟩ := validate_ok_inv hok
      unfold selectCoerce at hsel
      have hgC := getCol_addMissingNull_missing hnod hmem hmiss
      have hpres : hasCol (addMissingNull schema df) C = true := hasCol_of_getCol_some hgC
      have hsub : (keysOf (schema.filter (fun kv' =>
          hasCol (addMissingNull schema df) kv'.1))).Nodup :=
        List.Nodup.sublist ((List.filter_sublist _).map Prod.fst) hnod
      have hmemf : (C, tC) ∈ schema.filter (fun kv' =>
          hasCol (addMissingNull schema df) kv'.1) :=
        List.mem_filter.mpr ⟨hmem, hpres⟩
      obtain ⟨A, B⟩ := getCol_selectCoerceList hsel hsub
      obtain ⟨s, hs, hout⟩ := A (C, tC) hmemf
      rw [hgC] at hs
      injection hs with hs
      have hgoutC : getCol out C
          = some ⟨C, tC, List.replicate (height df) PValue.null⟩ := by
        apply hout
        subst hs
        by_cases hcond : ((C, tC).2.is_numeric && up) = true
        · rw [if_pos hcond]
          unfold castSeries
          have hmapM : (List.replicate (height df) PValue.null).mapM
              (fun v => castValue v (C, tC).2)
              = some (List.replicate (height df) PValue.null) :=
            mapM_some_id (fun v hv => by rw [List.eq_of_mem_replicate hv]; rfl)
          rw [hmapM]
        · rw [if_neg hcond]
      refine ⟨hgoutC, ?_⟩
      apply height_eq_of_mem_lengths
      · intro hnil
        rw [hnil] at hgoutC
        exact Option.noConfusion hgoutC
      · intro s' hs'
        obtain ⟨kv, -, t, ht, -, hlen⟩ := B s' hs'
        rw [hlen]
        exact mem_addMissingNull_lengths hwf t ht
  · intro am up x hxname hxlen
    have hkeysne : ∀ kv ∈ schema, ¬ (kv.1 : String) = x.name := by
      intro kv hkv heq
      exact hxname (heq ▸ List.mem_map_of_mem Prod.fst hkv)
    have hheight : height (df ++ [x]) = height df := by
      cases df with
      | nil => exact hxlen
      | cons s rest => rfl
    cases am with
    | false =>
      unfold coerce
      rw [if_neg (by simp), if_neg (by simp),
        show (df ++ [x] : Frame) = df ++ x :: ([] : Frame) from rfl,
        selectCoerce_append_cons schema up df [] x hkeysne, List.append_nil]
    | true =>
      unfold coerce
      rw [if_pos rfl, if_pos rfl]
      have happ : addMissingNull schema (df ++ [x])
          = (df ++ [x]) ++ (schema.filter (fun kv => !(hasCol df kv.1))).map
              (fun kv => (⟨kv.1, kv.2, List.replicate (height df) PValue.null⟩ : Series)) := by
        unfold addMissingNull
        rw [hheight, List.filter_congr (fun kv hkv => by
          rw [show hasCol (df ++ [x]) kv.1 = hasCol df kv.1 from by
            have := @hasCol_append_cons df [] x kv.1 (fun hh => (hkeysne kv hkv) hh.symm)
            simpa using this])]
      rw [happ, List.append_assoc, List.singleton_append,
        selectCoerce_append_cons schema up df _ x hkeysne]
      rfl

/-- C5 concrete: `TestSchema.coerce(pl.DataFrame({"cow": ["baz"]}),
allow_missing=True)`. -/
def schemaC5 : List (String × PolarsType) := [("foo", .boolean), ("bar", .int8)]

/-- The concrete input dataframe of the `allow_missing` test. -/
def dfC5 : Frame := [⟨"cow", .string, [.str "baz"]⟩]

/-- The result of coercing `dfC5` to `schemaC5` with missing columns
allowed. -/
def outC5 : Frame := [⟨"foo", .boolean, [.null]⟩, ⟨"bar", .int8, [.null]⟩]

/-- Witness for C5 at a concrete instance: the missing column comes back
fully null and declared-typed with the input's row count, and an undeclared
extra column is dropped without any effect on the result. -/
theorem C5_coerce_missing_drop_witness :
    coerce schemaC5 dfC5 true true = .ok outC5
    ∧ (getCol outC5 "foo" = some ⟨"foo", .boolean, List.replicate (height dfC5) PValue.null⟩
        ∧ height outC5 = height dfC5)
    ∧ coerce schemaC5 (dfC5 ++ [⟨"extra", .string, [.str "e"]⟩]) false true
        = coerce schemaC5 dfC5 false true := by
  refine ⟨by decide, ?_, ?_⟩
  · exact (C5_coerce_missing_drop schemaC5 dfC5 (by decide) (by decide)).1
      "foo" .boolean true outC5 (by decide) (by decide) (by decide)
  · exact (C5_coerce_missing_drop schemaC5 dfC5 (by decide) (by decide)).2
      false true ⟨"extra", .string, [.str "e"]⟩ (by decide) (by decide)

/-- A column reference accepted by `primary_key`: a plain string or a
`Column` descriptor. -/
inductive ColRef
  | str (s : String)
  | col (c : Column)
deriving DecidableEq

/-- `str(col) if isinstance(col, Column) else col`: the referenced name. -/
def ColRef.name : ColRef → String
  | .str s => s
  | .col c => c.name

/-- The `columns` argument of `primary_key`: one reference or a list;
a single reference is wrapped into a singleton list. -/
inductive ColumnsArg
  | single (c : ColRef)
  | many (cs : List ColRef)
deriving DecidableEq

/-- `if isinstance(columns, (str, Column)): columns = [columns]`. -/
def ColumnsArg.toList : ColumnsArg → List ColRef
  | .single c => [c]
  | .many cs => cs

/-- `df.select(column_names)` (raises `ColumnNotFoundError` on an absent
name). -/
def selectCols (df : Frame) : List String → Except SchemaError (List Series)
  | [] => .ok []
  | n :: rest =>
    match getCol df n with
    | none => .error (.columnNotFound n)
    | some s =>
      match selectCols df rest with
      | .ok out => .ok (s :: out)
      | .error e => .error e

/-- The rows of the selected sub-frame: row `i` is the tuple of the selected
columns' values at index `i`. -/
def rowsOf (sel : List Series) (h : Nat) : List (List PValue) :=
  (List.range h).map (fun i => sel.map (fun s => s.values.getD i PValue.null))

/-- `is_duplicated().any()`: some row of the sub-frame occurs at least
twice. -/
def is_duplicated_any (rows : List (List PValue)) : Bool :=
  rows.any (fun r => 2 ≤ @List.count _ instBEqOfDecidableEq r rows)

/-- `primary_key(df, columns)`: raise a uniqueness violation naming the
comma-joined column combination if the selected sub-frame has a duplicated
row. -/
def primary_key (df : Frame) (columns : ColumnsArg) : Except SchemaError Unit :=
  match selectCols df (columns.toList.map ColRef.name) with
  | .error e => .error e
  | .ok sel =>
    if is_duplicated_any (rowsOf sel (height df)) then
      .error (.checkFailure ("combination of columns ("
        ++ String.intercalate ", " (columns.toList.map ColRef.name) ++ ") must be unique"))
    else .ok ()

/-- Spec-side: the joint value tuple of the listed columns at row `i`. -/
def rowTuple (df : Frame) (names : List String) (i : Nat) : List PValue :=
  names.map (fun n =>
    match getCol df n with
    | some s => s.values.getD i PValue.null
    | none => PValue.null)

theorem selectCols_ok {df : Frame} : ∀ {names : List String},
    (∀ n ∈ names, hasCol df n = true) →
    ∃ sel, selectCols df names = .ok sel
      ∧ List.Forall₂ (fun n (s : Series) => getCol df n = some s) names sel := by
  intro names
  induction names with
  | nil => exact fun _ => ⟨[], rfl, .nil⟩
  | cons n rest ih =>
    intro h
    obtain ⟨sel, hsel, hrel⟩ := ih (fun m hm => h m (List.mem_cons_of_mem _ hm))
    have hn := h n (List.mem_cons_self _ _)
    cases hg : getCol df n with
    | none =>
      rw [← getCol_isSome, hg] at hn
      cases hn
    | some s =>
      refine ⟨s :: sel, ?_, .cons hg hrel⟩
      unfold selectCols
      simp only [hg, hsel]

theorem rowsOf_row_eq {df : Frame} {names : List String} {sel : List Series}
    (hrel : List.Forall₂ (fun n (s : Series) => getCol df n = some s) names sel)
    (i : Nat) :
    sel.map (fun s => s.values.getD i PValue.null) = rowTuple df names i := by
  induction hrel with
  | nil => rfl
  | @cons n s rest sel' hns htail ih =>
    unfold rowTuple
    simp only [List.map_cons, hns]
    unfold rowTuple at ih
    rw [ih]

theorem is_duplicated_any_iff {rows : List (List PValue)} :
    is_duplicated_any rows = true ↔ ¬ rows.Nodup := by
  unfold is_duplicated_any
  rw [List.any_eq_true, ← List.exists_duplicate_iff_not_nodup]
  constructor
  · rintro ⟨r, -, hcount⟩
    rw [decide_eq_true_eq] at hcount
    exact ⟨r, List.duplicate_iff_two_le_count.mpr hcount⟩
  · rintro ⟨r, hdup⟩
    exact ⟨r, hdup.mem, by
      rw [decide_eq_true_eq]
      exact List.duplicate_iff_two_le_count.mp hdup⟩

/-- C6: with the referenced columns present, `primary_key` raises the
uniqueness violation naming the exact comma-joined combination if and only
if two distinct rows agree on the whole listed combination jointly;
otherwise it returns successfully (so a repeat in one listed column with a
differing value in another does not raise). -/
theorem C6_primary_key (df : Frame) (columns : ColumnsArg)
    (_hwf : wfFrame df)
    (hpres : ∀ r ∈ columns.toList, hasCol df r.name = true) :
    (primary_key df columns = .error (.checkFailure ("combination of columns ("
        ++ String.intercalate ", " (columns.toList.map ColRef.name) ++ ") must be unique"))
      ↔ ∃ i ∈ Finset.range (height df), ∃ j ∈ Finset.range (height df), i < j
          ∧ rowTuple df (columns.toList.map ColRef.name) i
            = rowTuple df (columns.toList.map ColRef.name) j)
    ∧ ((¬ ∃ i ∈ Finset.range (height df), ∃ j ∈ Finset.range (height df), i < j
          ∧ rowTuple df (columns.toList.map ColRef.name) i
            = rowTuple df (columns.toList.map ColRef.name) j)
        → primary_key df columns = .ok ()) := by
  obtain ⟨sel, hsel, hrel⟩ := @selectCols_ok df (columns.toList.map ColRef.name)
    (fun n hn => by
      rw [List.mem_map] at hn
      obtain ⟨r, hr, rfl⟩ := hn
      exact hpres r hr)
  have hrows_len : (rowsOf sel (height df)).length = height df := by
    simp [rowsOf]
  have hget : ∀ i, i < height df →
      (rowsOf sel (height df)).get? i
        = some (rowTuple df (columns.toList.map ColRef.name) i) := by
    intro i hi
    unfold rowsOf
    rw [List.get?_map, List.get?_range hi, Option.map_some']
    rw [rowsOf_row_eq hrel]
  have hiff : is_duplicated_any (rowsOf sel (height df)) = true
      ↔ ∃ i ∈ Finset.range (height df), ∃ j ∈ Finset.range (height df), i < j
          ∧ rowTuple df (columns.toList.map ColRef.name) i
            = rowTuple df (columns.toList.map ColRef.name) j := by
    rw [is_duplicated_any_iff, List.nodup_iff_get?_ne_get?]
    push_neg
    constructor
    · rintro ⟨i, j, hij, hjlen, heq⟩
      rw [hrows_len] at hjlen
      refine ⟨i, Finset.mem_range.mpr (lt_trans hij hjlen), j,
        Finset.mem_range.mpr hjlen, hij, ?_⟩
      rw [hget i (lt_trans hij hjlen), hget j hjlen] at heq
      injection heq
    · rintro ⟨i, hi, j, hj, hij, heq⟩
      rw [Finset.mem_range] at hi hj
      exact ⟨i, j, hij, by rw [hrows_len]; exact hj,
        by rw [hget i hi, hget j hj, heq]⟩
  unfold primary_key
  simp only [hsel]
  by_cases hd : is_duplicated_any (rowsOf sel (height df)) = true
  · rw [if_pos hd]
    exact ⟨⟨fun _ => hiff.mp hd, fun _ => rfl⟩, fun hno => absurd (hiff.mp hd) hno⟩
  · rw [if_neg hd]
    constructor
    · constructor
      · intro h
        exact absurd h (fun hh => Except.noConfusion hh)
      · intro hex
        exact absurd (hiff.mpr hex) hd
    · intro _
      rfl

/-- The dataframe of the composite-key test: `col1 = [1,1,2]`,
`col2 = ["a","b","a"]`. -/
def dfC6 : Frame :=
  [⟨"col1", .int64, [.int 1, .int 1, .int 2]⟩,
   ⟨"col2", .string, [.str "a", .str "b", .str "a"]⟩]

/-- Witness for C6: on `dfC6` the pair `(col1, col2)` never repeats, so the
composite key check passes even though `col1` alone repeats; `col1` alone
raises the violation naming exactly `col1`. -/
theorem C6_primary_key_witness :
    primary_key dfC6 (.many [.str "col1", .str "col2"]) = .ok ()
    ∧ primary_key dfC6 (.single (.str "col1"))
        = .error (.checkFailure "combination of columns (col1) must be unique") :=
  ⟨(C6_primary_key dfC6 (.many [.str "col1", .str "col2"]) (by decide) (by decide)).2
      (by decide),
    (C6_primary_key dfC6 (.single (.str "col1")) (by decide) (by decide)).1.mpr
      (by decide)⟩

theorem firstOccAux_nodup : ∀ (xs acc : List String), acc.Nodup →
    (firstOccAux acc xs).Nodup := by
  intro xs
  induction xs with
  | nil => exact fun acc h => h
  | cons x xs ih =>
    intro acc hacc
    unfold firstOccAux
    by_cases hx : acc.contains x = true
    · rw [if_pos hx]
      exact ih acc hacc
    · rw [if_neg hx]
      apply ih
      rw [List.nodup_append]
      refine ⟨hacc, List.nodup_singleton x, ?_⟩
      intro y hy hymem
      rw [List.mem_singleton] at hymem
      subst hymem
      exact hx (List.elem_eq_true_of_mem hy)

theorem mkSchema_keys_nodup (items : List (String × PolarsType)) :
    (keysOf (mkSchema items)).Nodup := by
  rw [(mkSchema_spec items).1]
  exact firstOccAux_nodup _ [] List.nodup_nil

theorem mem_firstOccAux : ∀ (xs acc : List String) {x : String},
    (x ∈ acc ∨ x ∈ xs) → x ∈ firstOccAux acc xs := by
  intro xs
  induction xs with
  | nil =>
    intro acc x h
    rcases h with h | h
    · exact h
    · cases h
  | cons y ys ih =>
    intro acc x h
    unfold firstOccAux
    apply ih
    rcases h with h | h
    · left
      by_cases hy : acc.contains y = true
      · rw [if_pos hy]; exact h
      · rw [if_neg hy]; exact List.mem_append_left _ h
    · rcases List.mem_cons.mp h with rfl | h'
      · left
        by_cases hy : acc.contains x = true
        · rw [if_pos hy]
          exact List.mem_of_elem_eq_true hy
        · rw [if_neg hy]
          exact List.mem_append_right _ (List.mem_singleton_self x)
      · exact Or.inr h'

theorem mem_keys_mkSchema {items : List (String × PolarsType)} {k : String}
    (h : k ∈ keysOf items) : k ∈ keysOf (mkSchema items) := by
  rw [(mkSchema_spec items).1]
  exact mem_firstOccAux _ [] (Or.inr h)

theorem lookupT_colAttrsFold_notin :
    ∀ (l : List (String × PolarsType)) (acc : List (String × Member)) (k : String),
      k ∉ keysOf l →
      lookupT (l.foldl (fun a kv => updInsert a kv.1 (Member.column ⟨kv.1, kv.2⟩)) acc) k
        = lookupT acc k := by
  intro l
  induction l with
  | nil => intro acc k _; rfl
  | cons kv0 rest ih =>
    intro acc k hk
    rw [keysOf_cons, List.mem_cons] at hk
    push_neg at hk
    rw [List.foldl_cons, ih _ k hk.2, lookupT_updInsert,
      if_neg (fun h => hk.1 h.symm)]

theorem lookupT_setColumnAttrs :
    ∀ (schema : List (String × PolarsType)) (ns : List (String × Member)),
      (keysOf schema).Nodup →
      ∀ kv ∈ schema, lookupT (setColumnAttrs ns schema) kv.1
        = some (Member.column ⟨kv.1, kv.2⟩) := by
  intro schema
  induction schema with
  | nil => intro ns _ kv h; cases h
  | cons kv0 rest ih =>
    intro ns hnod kv hkv
    rw [keysOf_cons, List.nodup_cons] at hnod
    obtain ⟨hk0, hnod'⟩ := hnod
    unfold setColumnAttrs
    rw [List.foldl_cons]
    rcases List.mem_cons.mp hkv with rfl | hmem
    · rw [lookupT_colAttrsFold_notin rest _ kv.1 hk0, lookupT_updInsert, if_pos rfl]
    · exact ih (updInsert ns kv0.1 (.column ⟨kv0.1, kv0.2⟩)) hnod' kv hmem

/-- C10: after a schema class is created, every canonical column (inherited
columns included) is exposed as a class attribute of the same name: a
`Column` whose string content equals the column name and whose `dtype`
equals the canonical declared type. -/
theorem C10_column_attributes (parents : List SchemaClass) (ns : List (String × Member))
    (sc : SchemaClass) (hok : buildMeta parents ns = .ok sc) :
    ∀ kv ∈ sc.schema, ∃ c : Column,
      lookupT sc.attrs kv.1 = some (.column c) ∧ c.name = kv.1 ∧ c.dtype = kv.2 := by
  intro kv hkv
  obtain ⟨hschema, -, hattrs⟩ := buildMeta_ok_schema hok
  rw [hattrs]
  rw [hschema] at hkv
  exact ⟨⟨kv.1, kv.2⟩,
    lookupT_setColumnAttrs _ ns (mkSchema_keys_nodup _) kv hkv, rfl, rfl⟩

/-- Witness for C10 at the concrete inheritance instance: the inherited
column `foo` is exposed on the child class as a `Column` attribute. -/
theorem C10_column_attributes_witness :
    ∃ c : Column, lookupT canonicalChild.attrs "foo" = some (.column c)
      ∧ c.name = "foo" ∧ c.dtype = PolarsType.boolean :=
  C10_column_attributes [parentA] childNs canonicalChild rfl ("foo", .boolean) (by decide)

/-- The claim's notion of an unexpected member: neither a column descriptor,
nor a recognized method/check member, nor dunder-named. -/
def claimUnexpected (k : String) (m : Member) : Bool :=
  !(endsWithDunder k) &&
    (match m with
     | .other => true
     | _ => false)

/-- The amended notion: additionally not named like a column of the
canonical schema (an inherited column name may be overridden by any value
without an error). -/
def amendedUnexpected (schemaKeys : List String) (k : String) (m : Member) : Bool :=
  claimUnexpected k m && !(schemaKeys.contains k)

/-- A `Column`-valued class-body member's key is always a canonical-schema
key. -/
theorem column_key_in_schema (parents : List SchemaClass) {ns : List (String × Member)}
    {km : String × Member} (hkm : km ∈ ns) {c : Column} (hc : km.2 = Member.column c) :
    (keysOf (canonicalOf parents ns)).contains km.1 = true := by
  apply List.elem_eq_true_of_mem
  apply mem_keys_mkSchema
  unfold allItems keysOf
  rw [List.map_append, List.mem_append]
  right
  refine List.mem_map.mpr ⟨(km.1, c.t), ?_, rfl⟩
  unfold ownColumnItems
  rw [List.mem_filterMap]
  exact ⟨km, hkm, by rw [hc]⟩

/-- The code's unexpected-member filter coincides with the amended claim's
filter. -/
theorem unexpected_eq_amended (parents : List SchemaClass) (ns : List (String × Member)) :
    ns.filter (fun km => !(isAllowedProperty km.1 km.2)
        && !((keysOf (canonicalOf parents ns)).contains km.1))
      = ns.filter (fun km =>
          amendedUnexpected (keysOf (canonicalOf parents ns)) km.1 km.2) := by
  apply List.filter_congr
  intro km hkm
  cases hm : km.2 with
  | column c =>
    have hk := column_key_in_schema parents hkm hm
    have hL : (!(isAllowedProperty km.1 (Member.column c))
        && !((keysOf (canonicalOf parents ns)).contains km.1)) = false := by
      rw [hk]
      simp
    have hR : amendedUnexpected (keysOf (canonicalOf parents ns)) km.1
        (Member.column c) = false := by
      unfold amendedUnexpected
      rw [hk]
      simp
    rw [hL, hR]
  | func marked => simp [isAllowedProperty, amendedUnexpected, claimUnexpected, hm]
  | classm marked body => simp [isAllowedProperty, amendedUnexpected, claimUnexpected, hm]
  | staticm => simp [isAllowedProperty, amendedUnexpected, claimUnexpected, hm]
  | prop => simp [isAllowedProperty, amendedUnexpected, claimUnexpected, hm]
  | other =>
    simp only [isAllowedProperty, amendedUnexpected, claimUnexpected, hm, Bool.or_false,
      Bool.and_true]

/-- The class body used to build the parent of the C8 counterexample. -/
def parentFooNs : List (String × Member) := [("foo", Member.column ⟨"", .int8⟩)]

/-- The parent schema class of the C8 counterexample. -/
def parentFoo : SchemaClass where
  schema := [("foo", .int8)]
  checks := []
  attrs := [("foo", .column ⟨"foo", .int8⟩)]

/-- A child class body overriding the inherited column `foo` with a value
that is neither a descriptor, a method, nor dunder-named. -/
def childOtherNs : List (String × Member) := [("foo", Member.other)]

/-- C8 counterexample: the member `foo` of `childOtherNs` is unexpected in
the claim's sense, yet declaring the child class raises no error at all —
the code's filter also excludes members named like an (inherited) canonical
column. -/
theorem C8_counterexample :
    buildMeta [] parentFooNs = .ok parentFoo
    ∧ claimUnexpected "foo" Member.other = true
    ∧ ∀ e, buildMeta [parentFoo] childOtherNs ≠ .error e := by
  refine ⟨rfl, rfl, ?_⟩
  intro e h
  have hok : buildMeta [parentFoo] childOtherNs
      = .ok { schema := [("foo", .int8)], checks := [],
              attrs := [("foo", .column ⟨"foo", .int8⟩)] } := rfl
  rw [hok] at h
  exact Except.noConfusion h

/-- C8 (amended): schema declaration fails exactly at definition time — with
the annotations error when the body used type annotations (checked first),
and otherwise with an error enumerating precisely the members that are
neither a column descriptor, nor a method/classmethod/staticmethod/property,
nor dunder-named, nor named like a canonical-schema column; when no such
member exists the declaration succeeds. -/
theorem C8_definition_errors (parents : List SchemaClass) (ns : List (String × Member)) :
    (hasAnnotationsKey ns = true → buildMeta parents ns = .error .annotations)
    ∧ (hasAnnotationsKey ns = false →
        ∀ us, (buildMeta parents ns = .error (.unexpectedMembers us)
          ↔ (us = (ns.filter (fun km =>
                amendedUnexpected (keysOf (canonicalOf parents ns)) km.1 km.2)).map Prod.fst
              ∧ us ≠ [])))
    ∧ (hasAnnotationsKey ns = false →
        (ns.filter (fun km =>
          amendedUnexpected (keysOf (canonicalOf parents ns)) km.1 km.2)) = [] →
        ∃ sc, buildMeta parents ns = .ok sc) := by
  have hfilter : unexpectedProperties ns (canonicalOf parents ns)
      = (ns.filter (fun km =>
          amendedUnexpected (keysOf (canonicalOf parents ns)) km.1 km.2)).map Prod.fst := by
    unfold unexpectedProperties
    rw [unexpected_eq_amended]
  refine ⟨?_, ?_, ?_⟩
  · intro h
    unfold buildMeta
    rw [if_pos h]
  · intro h us
    unfold buildMeta
    rw [if_neg (by simp [h])]
    by_cases he : unexpectedProperties ns (canonicalOf parents ns) = []
    · rw [if_pos (by rw [he]; rfl)]
      constructor
      · intro hh
        exact absurd hh (fun hh => Except.noConfusion hh)
      · rintro ⟨rfl, hne⟩
        rw [← hfilter] at hne
        exact absurd he hne
    · rw [if_neg (fun hh => he (List.isEmpty_iff.mp hh))]
      constructor
      · intro hh
        injection hh with hh
        injection hh with hh
        exact ⟨hh.symm.trans hfilter, by rw [hh.symm.trans hfilter, ← hfilter]; exact he⟩
      · rintro ⟨rfl, -⟩
        rw [hfilter]
  · intro h hempty
    unfold buildMeta
    rw [if_neg (by simp [h]), if_pos (by rw [hfilter, hempty]; rfl)]
    exact ⟨_, rfl⟩

/-- Witness for the amended C8: an annotations-only body errors, a body with
a genuinely unexpected member errors naming it, and a clean body succeeds. -/
theorem C8_definition_errors_witness :
    buildMeta [] [("__annotations__", Member.other)] = .error .annotations
    ∧ buildMeta [] [("oops", Member.other)] = .error (.unexpectedMembers ["oops"])
    ∧ ∃ sc, buildMeta [] [("foo", Member.column ⟨"", .int8⟩)] = .ok sc :=
  ⟨(C8_definition_errors [] [("__annotations__", Member.other)]).1 rfl,
   ((C8_definition_errors [] [("oops", Member.other)]).2.1 rfl ["oops"]).mpr
     ⟨rfl, by decide⟩,
   (C8_definition_errors [] [("foo", Member.column ⟨"", .int8⟩)]).2.2 rfl rfl⟩

/-- The loop body of `perform_data_quality_checks`: each registered check is
probed for the classmethod contract when reached (raising the
`"Every data check should be a classmethod"` `TypeError`, here `misuse`, on
failure) and then invoked on the validated frame; a raised check failure
aborts the remaining checks. -/
def runChecks (df : Frame) : List Check → Except SchemaError Unit
  | [] => .ok ()
  | c :: rest =>
    match c with
    | .notClassm => .error .misuse
    | .classm body =>
      match body df with
      | .ok _ => runChecks df rest
      | .error msg => .error (.checkFailure msg)

/-- `_DataFrameSchema.perform_data_quality_checks`: validate first, then run
every registered check against the validated frame, returning it when all
pass. -/
def perform_data_quality_checks (sc : SchemaClass) (df : Frame) :
    Except SchemaError Frame :=
  match validate sc.schema df with
  | .error e => .error e
  | .ok v =>
    match runChecks v sc.checks with
    | .ok _ => .ok v
    | .error e => .error e

theorem runChecks_append_ok {df : Frame} :
    ∀ {pre : List Check}, (∀ c ∈ pre, ∃ b, c = Check.classm b ∧ b df = .ok ()) →
      ∀ rest, runChecks df (pre ++ rest) = runChecks df rest := by
  intro pre
  induction pre with
  | nil => exact fun _ rest => rfl
  | cons c pre' ih =>
    intro h rest
    obtain ⟨b, rfl, hb⟩ := h c (List.mem_cons_self _ _)
    rw [List.cons_append]
    show (match b df with
      | .ok _ => runChecks df (pre' ++ rest)
      | .error msg => .error (.checkFailure msg)) = runChecks df rest
    rw [hb]
    exact ih (fun c hc => h c (List.mem_cons_of_mem _ hc)) rest

/-- C9: a quality check registered without the classmethod contract causes
no declaration-time failure — a hygiene-clean body always builds — but draws
the misuse error when execution reaches it; the checks of a built class are
the inherited checks (in parent order) followed by the own ones (in
registration order); on a conformant dataframe,
`perform_data_quality_checks` validates and then runs the checks in order,
the first raised failure aborting the remaining checks, and returns the
validated frame when every check passes. -/
theorem C9_check_execution :
    (∀ (parents : List SchemaClass) (ns : List (String × Member)),
        hasAnnotationsKey ns = false →
        (∀ km ∈ ns, isAllowedProperty km.1 km.2 = true ∨ ∃ c, km.2 = Member.column c) →
        ∃ sc, buildMeta parents ns = .ok sc)
    ∧ (∀ (parents : List SchemaClass) (ns : List (String × Member)) (sc : SchemaClass),
        buildMeta parents ns = .ok sc →
        sc.checks = parents.flatMap (fun p => p.checks) ++ harvestChecks ns)
    ∧ (∀ (sc : SchemaClass) (df : Frame) (pre rest : List Check),
        collectSchema df = sc.schema →
        sc.checks = pre ++ Check.notClassm :: rest →
        (∀ c ∈ pre, ∃ b, c = Check.classm b ∧ b df = .ok ()) →
        perform_data_quality_checks sc df = .error .misuse)
    ∧ (∀ (sc : SchemaClass) (df : Frame) (pre rest : List Check)
        (f : Frame → Except String Unit) (e : String),
        collectSchema df = sc.schema →
        sc.checks = pre ++ Check.classm f :: rest →
        (∀ c ∈ pre, ∃ b, c = Check.classm b ∧ b df = .ok ()) →
        f df = .error e →
        perform_data_quality_checks sc df = .error (.checkFailure e))
    ∧ (∀ (sc : SchemaClass) (df : Frame),
        collectSchema df = sc.schema →
        (∀ c ∈ sc.checks, ∃ b, c = Check.classm b ∧ b df = .ok ()) →
        perform_data_quality_checks sc df = .ok df) := by
  refine ⟨?_, ?_, ?_, ?_, ?_⟩
  · intro parents ns hann hmem
    unfold buildMeta
    rw [if_neg (by simp [hann])]
    have hempty : unexpectedProperties ns (canonicalOf parents ns) = [] := by
      unfold unexpectedProperties
      rw [show ns.filter (fun km => !(isAllowedProperty km.1 km.2)
          && !((keysOf (canonicalOf parents ns)).contains km.1)) = [] from ?_]
      · rfl
      · rw [List.filter_eq_nil_iff]
        intro km hkm
        rcases hmem km hkm with hallow | ⟨c, hc⟩
        · simp [hallow]
        · rw [column_key_in_schema parents hkm hc]
          simp
    rw [if_pos (by rw [hempty]; rfl)]
    exact ⟨_, rfl⟩
  · intro parents ns sc hok
    exact (buildMeta_ok_schema hok).2.1
  · intro sc df pre rest hcs hchecks hpre
    unfold perform_data_quality_checks
    rw [hchecks]
    simp only [validate_eq_ok hcs]
    rw [runChecks_append_ok hpre]
    rfl
  · intro sc df pre rest f e hcs hchecks hpre hf
    unfold perform_data_quality_checks
    rw [hchecks]
    simp only [validate_eq_ok hcs]
    rw [runChecks_append_ok hpre]
    simp only [runChecks, hf]
  · intro sc df hcs hall
    unfold perform_data_quality_checks
    simp only [validate_eq_ok hcs]
    have h := runChecks_append_ok hall []
    rw [List.append_nil] at h
    rw [h]
    rfl

/-- Class body of a schema with a marked but non-classmethod check (as in
the repository's `NonClassMethodDataQualityCheckSchema` test). -/
def nsC9 : List (String × Member) :=
  [("col", Member.column ⟨"", .int64⟩), ("dq", Member.func true)]

/-- A conformant single-column dataframe for the check-execution witnesses. -/
def dfC9 : Frame := [⟨"col", .int64, [.int 1, .int 2]⟩]

/-- A schema class whose one registered check is not a classmethod. -/
def scMisC9 : SchemaClass where
  schema := [("col", .int64)]
  checks := [Check.notClassm]
  attrs := []

/-- A schema class whose one registered check raises. -/
def scFailC9 : SchemaClass where
  schema := [("col", .int64)]
  checks := [Check.classm (fun _ => .error "dup")]
  attrs := []

/-- A schema class whose one registered check passes. -/
def scOkC9 : SchemaClass where
  schema := [("col", .int64)]
  checks := [Check.classm (fun _ => .ok ())]
  attrs := []

/-- Witness for C9: the mis-registered check builds fine at declaration time
but draws the misuse error at execution; a failing classmethod check aborts
with its failure; an all-passing check list returns the validated frame. -/
theorem C9_check_execution_witness :
    (∃ sc, buildMeta [] nsC9 = .ok sc)
    ∧ perform_data_quality_checks scMisC9 dfC9 = .error .misuse
    ∧ perform_data_quality_checks scFailC9 dfC9 = .error (.checkFailure "dup")
    ∧ perform_data_quality_checks scOkC9 dfC9 = .ok dfC9 := by
  refine ⟨?_, ?_, ?_, ?_⟩
  · refine C9_check_execution.1 [] nsC9 rfl ?_
    intro km hkm
    rcases List.mem_cons.mp hkm with rfl | hkm'
    · exact Or.inr ⟨_, rfl⟩
    · rcases List.mem_cons.mp hkm' with rfl | h
      · exact Or.inl rfl
      · cases h
  · exact C9_check_execution.2.2.1 scMisC9 dfC9 [] [] rfl rfl
      (fun c hc => absurd hc (List.not_mem_nil c))
  · exact C9_check_execution.2.2.2.1 scFailC9 dfC9 [] [] (fun _ => .error "dup") "dup"
      rfl rfl (fun c hc => absurd hc (List.not_mem_nil c)) rfl
  · refine C9_check_execution.2.2.2.2 scOkC9 dfC9 rfl ?_
    intro c hc
    rcases List.mem_cons.mp hc with rfl | h
    · exact ⟨_, rfl, rfl⟩
    · cases h

end PolarsTyped
